import Mathlib

/-!
Verification of the message-content segmentation pipeline of the
conversational-agent-garak frontend.

The definitions below are a shallow embedding of the JavaScript source:

* `formatMessageContent` embeds the segmenter of
  `src/frontend/src/utils/helpers.jsx` (lines 17-57): the regex
  `/(three backticks)(python|javascript|js|html|css|bash|shell|sql|json|typescript|tsx|jsx)?\s*([\s\S]*?)(three backticks)/g`
  driven by `regex.exec` over the input, producing `markdown` and `code`
  parts.  Strings are modelled as `List Char`.
* `pressCopy` / `fireDue` embed the per-code-block copy handler
  (helpers.jsx lines 121-126): `navigator.clipboard.writeText(c).then(cb)`
  where `cb` replaces the whole `copySuccess` object by `{index: true}` and
  schedules `setCopySuccess({})` 2000 ms later.  The JS event loop is
  modelled by explicit absolute-time events; a promise rejected with no
  rejection handler attached surfaces as an unhandled rejection flag.
* `chatReducer` / `sendMessage` embed the chat context of the repository
  (reducer and `sendMessage` of the ChatProvider): the reducer is the
  literal `switch`, and `sendMessage` is modelled as a function from the
  message text, current state, persisted history and backend outcome to the
  new state, new persisted history, the dispatched action list and whether a
  backend request was made.
-/

/-- Characters matched by the JavaScript `\s` class (also the set stripped
by `String.prototype.trim`). -/
def jsSpaceChars : List Char :=
  [' ', '\t', '\n', '\r', '\x0b', '\x0c', ' ', ' ',
   ' ', ' ', ' ', ' ', ' ', ' ', ' ',
   ' ', ' ', ' ', ' ', ' ', ' ', ' ',
   ' ', '　', '﻿']

def jsSpace (c : Char) : Bool := jsSpaceChars.contains c

/-- Abbreviation turning a string literal into the `List Char` we compute on. -/
def str (s : String) : List Char := s.data

/-- The triple-backtick fence delimiter. -/
def fence : List Char := str "```"

/-- Whether a character is a backtick (the fence character). -/
def isTick (c : Char) : Bool := fence.contains c

/-- JavaScript `String.prototype.trim`: strip leading and trailing
whitespace. -/
def jsTrim (s : List Char) : List Char :=
  ((s.dropWhile jsSpace).reverse.dropWhile jsSpace).reverse

/-- The language alternatives of the fence regex, in source order
(`python|javascript|js|html|css|bash|shell|sql|json|typescript|tsx|jsx`). -/
def knownTags : List (List Char) :=
  [str "python", str "javascript", str "js", str "html", str "css",
   str "bash", str "shell", str "sql", str "json", str "typescript",
   str "tsx", str "jsx"]

/-- First occurrence split: `splitFirst pat s = some (a, b)` when
`s = a ++ pat ++ b` and `a` is the shortest such prefix; `none` when `pat`
does not occur in `s`. -/
def splitFirst (pat : List Char) : List Char → Option (List Char × List Char)
  | [] => if pat.isEmpty then some ([], []) else none
  | c :: s =>
    if pat.isPrefixOf (c :: s) then some ([], (c :: s).drop pat.length)
    else
      match splitFirst pat s with
      | some (a, b) => some (c :: a, b)
      | none => none

/-- The capture-relevant data of one regex match: `tag` is group 1 (the
optional language), `body` is group 2 (the lazily matched code body, before
`trim`), `raw` is `match[0]` (the whole matched text), and `rest` is the
input from `lastIndex` on. -/
structure MatchInfo where
  tag : Option (List Char)
  body : List Char
  raw : List Char
  rest : List Char
deriving DecidableEq, Repr

/-- After the opening fence and optional tag: `\s*` matches greedily, then
the lazy `([\s\S]*?)` extends to the first closing fence.  Returns
(consumed text including the closing fence, group 2, rest) or `none` when
no closing fence remains (regex attempt fails; `\s*` backtracking cannot
help because whitespace contains no backtick). -/
def bodyAttempt (s : List Char) : Option (List Char × List Char × List Char) :=
  match splitFirst fence (s.dropWhile jsSpace) with
  | some (a, b) => some (s.takeWhile jsSpace ++ a ++ fence, a, b)
  | none => none

/-- Backtracking over the alternatives of the optional tag group, in source
order, finishing with the empty alternative (no tag). -/
def altsAttempt : List (List Char) → List Char → Option MatchInfo
  | [], s =>
    match bodyAttempt s with
    | some (c, a, b) => some ⟨none, a, fence ++ c, b⟩
    | none => none
  | t :: ts, s =>
    if t.isPrefixOf s then
      match bodyAttempt (s.drop t.length) with
      | some (c, a, b) => some ⟨some t, a, fence ++ t ++ c, b⟩
      | none => altsAttempt ts s
    else altsAttempt ts s

/-- `regex.exec` from the current position: finds the leftmost position
where the whole fence pattern matches, returning the text before the match
and the match data. -/
def findMatch : List Char → Option (List Char × MatchInfo)
  | [] => none
  | c :: s =>
    match
      (if fence.isPrefixOf (c :: s) then altsAttempt knownTags ((c :: s).drop 3)
       else none) with
    | some m => some ([], m)
    | none => (findMatch s).map (fun pm => (c :: pm.1, pm.2))

/-- A part produced by the segmenter: markdown prose or a fenced code
block with its language. -/
inductive Seg
  | markdown (content : List Char)
  | code (language : List Char) (content : List Char)
deriving DecidableEq, Repr

/-- The `while ((match = regex.exec(content)) !== null)` loop of
`formatMessageContent`; `fuel` bounds the number of iterations (every match
consumes at least the two fences, so `fuel = input length` always
suffices — see `partsAux_fuel_irrel`). -/
def partsAux : Nat → List Char → List Seg
  | 0, s => if s.isEmpty then [] else [Seg.markdown s]
  | fuel + 1, s =>
    match findMatch s with
    | none => if s.isEmpty then [] else [Seg.markdown s]
    | some (pre, m) =>
      (if pre.isEmpty then [] else [Seg.markdown pre]) ++
        Seg.code (m.tag.getD (str "text")) (jsTrim m.body) :: partsAux fuel m.rest

/-- The segmenter of `helpers.jsx`: empty input yields no parts (the
function returns `null`); otherwise the regex loop splits the input into
markdown and code parts, the code language defaulting to `"text"` and the
code body being `match[2].trim()`. -/
def formatMessageContent (s : List Char) : List Seg := partsAux s.length s

/-- The source span of each part: markdown parts keep their text, code
parts own `match[0]` (fences included). -/
def sourcesAux : Nat → List Char → List (List Char)
  | 0, s => if s.isEmpty then [] else [s]
  | fuel + 1, s =>
    match findMatch s with
    | none => if s.isEmpty then [] else [s]
    | some (pre, m) =>
      (if pre.isEmpty then [] else [pre]) ++ m.raw :: sourcesAux fuel m.rest

def segmentSources (s : List Char) : List (List Char) := sourcesAux s.length s

/-- The language tag the regex alternation captures for a fence whose
post-open text is `s`: the first alternative that textually matches. -/
def findTag (s : List Char) : Option (List Char) :=
  knownTags.find? (fun t => t.isPrefixOf s)

/-- The round-trip reassembly described by the specification: markdown
segments contribute their content, code segments are re-wrapped in
triple-backtick fences with their captured language tag.  (This definition
follows the spec's words, to be compared with the segmenter's output.) -/
def roundTripReassembly (segs : List Seg) : List Char :=
  (segs.map (fun seg =>
    match seg with
    | Seg.markdown c => c
    | Seg.code lang c => fence ++ lang ++ c ++ fence)).flatten

/-- Relation between a produced segment and its source span: a markdown
segment's source is its content; a code segment's source is a complete
fenced block. -/
def SegSrc : Seg → List Char → Prop
  | Seg.markdown c, src => src = c
  | Seg.code _ _, src => ∃ mid, src = fence ++ (mid ++ fence)

/-- Whether a segment is a markdown segment. -/
def isMd : Seg → Bool
  | Seg.markdown _ => true
  | Seg.code _ _ => false

/-- A segment passes when it is not a markdown segment with empty content. -/
def mdNonemptyOk : Seg → Bool
  | Seg.markdown c => !c.isEmpty
  | Seg.code _ _ => true

/-- All code segments' contents are free of the triple-backtick fence
delimiter. -/
def codeContentsFenceFree : List Seg → Bool
  | [] => true
  | Seg.markdown _ :: rest => codeContentsFenceFree rest
  | Seg.code _ c :: rest =>
    !(splitFirst fence c).isSome && codeContentsFenceFree rest

/-- No two adjacent markdown segments in the list. -/
def noAdjacentMarkdown : List Seg → Bool
  | a :: b :: rest => !(isMd a && isMd b) && noAdjacentMarkdown (b :: rest)
  | _ => true

/-- Whether the input contains a complete triple-backtick fence pair: an
occurrence of the fence followed, disjointly, by another one. -/
def hasPair (s : List Char) : Bool :=
  match splitFirst fence s with
  | some (_, b) => (splitFirst fence b).isSome
  | none => false

/-- Whether the input contains a triple-backtick fence at all. -/
def hasFence (s : List Char) : Bool := (splitFirst fence s).isSome

/-! ### The copy-to-clipboard acknowledgment state

`copySuccess` in `ChatMessage.jsx` is a component-local object; the
per-code-block copy handler replaces it wholesale by `{[index]: true}` on
clipboard success and schedules `setCopySuccess({})` 2000 ms later with
`setTimeout` (never cancelling previously scheduled timeouts).  The object
therefore holds at most one acknowledged index, modelled as `Option Nat`;
pending timeouts are modelled by their absolute deadlines. -/

structure CopyState where
  flags : Option Nat
  timers : List Nat
deriving DecidableEq, Repr

def initCopyState : CopyState := ⟨none, []⟩

/-- Run every pending timeout whose deadline has been reached; each
callback executes `setCopySuccess({})`. -/
def fireDue (st : CopyState) (now : Nat) : CopyState :=
  ⟨if st.timers.any (fun d => decide (d ≤ now)) then none else st.flags,
   st.timers.filter (fun d => decide (now < d))⟩

/-- The copy-button onClick handler (helpers.jsx lines 121-126):
`navigator.clipboard.writeText(part.content).then(cb)` where `cb` sets
`copySuccess` to `{[index]: true}` and schedules the reset after 2000 ms.
`ok` is the clipboard promise's outcome; the returned Bool reports whether
an unhandled promise rejection escaped: `.then` is given no rejection
handler and no `.catch` is attached, so a rejected write surfaces as an
unhandled rejection. -/
def pressCopy (st : CopyState) (now i : Nat) (ok : Bool) : CopyState × Bool :=
  if ok then ({ flags := some i, timers := st.timers ++ [now + 2000] }, false)
  else (st, true)

/-- Run a chronological list `(time, index)` of successful copy clicks. -/
def runCopies : CopyState → List (Nat × Nat) → CopyState
  | st, [] => st
  | st, (tm, i) :: rest => runCopies (pressCopy (fireDue st tm) tm i true).1 rest

/-- The `copySuccess` object observed at time `t`, after the clicks of
`presses` that happened at or before `t` and all timeouts due by `t`. -/
def flagsAt (presses : List (Nat × Nat)) (t : Nat) : Option Nat :=
  (fireDue (runCopies initCopyState
    (presses.filter (fun p => decide (p.1 ≤ t)))) t).flags

/-! ### The chat context (reducer and sendMessage) -/

structure Msg where
  role : List Char
  content : List Char
deriving DecidableEq, Repr

structure ChatState where
  messages : List Msg
  isLoading : Bool
  error : Option (List Char)
deriving DecidableEq, Repr

/-- The action vocabulary of the chat reducer. -/
inductive ChatAction
  | setMessages (payload : List Msg)
  | addMessage (payload : Msg)
  | setLoading (payload : Bool)
  | setError (payload : List Char)
  | clearHistory
deriving DecidableEq, Repr

def initialState : ChatState := ⟨[], false, none⟩

/-- The `chatReducer` switch. -/
def chatReducer (state : ChatState) (action : ChatAction) : ChatState :=
  match action with
  | ChatAction.setMessages p => { state with messages := p }
  | ChatAction.addMessage p => { state with messages := state.messages ++ [p] }
  | ChatAction.setLoading p => { state with isLoading := p }
  | ChatAction.setError p => { state with error := some p }
  | ChatAction.clearHistory => initialState

/-- Outcome of `apiService.sendMessage`. -/
inductive ApiResult
  | ok (response : List Char) (history : List Msg)
  | err (message : List Char)
deriving Repr

/-- `sendMessage` of the ChatProvider, as a function of the message text,
the current reducer state, the persisted `chat-history` localStorage value
and the backend outcome.  Returns the new reducer state, the new persisted
history, the list of dispatched actions in order, and whether a backend
request was performed.  The guard `if (!content.trim()) return;` is the
first statement. -/
def sendMessage (content : List Char) (st : ChatState) (saved : List Msg)
    (api : ApiResult) : ChatState × List Msg × List ChatAction × Bool :=
  if (jsTrim content).isEmpty then (st, saved, [], false)
  else
    let a1 := ChatAction.addMessage ⟨str "user", content⟩
    let a2 := ChatAction.setLoading true
    match api with
    | ApiResult.ok resp hist =>
      let a3 := ChatAction.addMessage ⟨str "assistant", resp⟩
      let display := hist.filter (fun m => !(m.role == str "system"))
      let a4 := ChatAction.setLoading false
      (chatReducer (chatReducer (chatReducer (chatReducer st a1) a2) a3) a4,
       display, [a1, a2, a3, a4], true)
    | ApiResult.err emsg =>
      let shown := if emsg.isEmpty then
          str "Failed to communicate with the server." else emsg
      let a3 := ChatAction.setError emsg
      let a4 := ChatAction.addMessage ⟨str "assistant", str "Error: " ++ shown⟩
      let a5 := ChatAction.setLoading false
      (chatReducer (chatReducer (chatReducer (chatReducer (chatReducer st a1)
          a2) a3) a4) a5,
       saved, [a1, a2, a3, a4, a5], true)

/-! ### Basic facts about `splitFirst` and prefixes -/

theorem fence_ne_nil : fence ≠ [] := by decide

theorem isPrefixOf_append_of_isPrefixOf {p x : List Char} (y : List Char)
    (h : p.isPrefixOf x = true) : p.isPrefixOf (x ++ y) = true := by
  rw [List.isPrefixOf_iff_prefix] at h ⊢
  exact h.trans (List.prefix_append x y)

theorem eq_append_drop_of_isPrefixOf {p s : List Char}
    (h : p.isPrefixOf s = true) : s = p ++ s.drop p.length := by
  rw [List.isPrefixOf_iff_prefix] at h
  obtain ⟨t, rfl⟩ := h
  rw [List.drop_left]

theorem splitFirst_nil (pat : List Char) :
    splitFirst pat [] = if pat.isEmpty then some ([], []) else none := rfl

theorem splitFirst_cons (pat : List Char) (c : Char) (s : List Char) :
    splitFirst pat (c :: s) =
      if pat.isPrefixOf (c :: s) then some ([], (c :: s).drop pat.length)
      else (splitFirst pat s).map (fun p => (c :: p.1, p.2)) := by
  by_cases hp : pat.isPrefixOf (c :: s) = true
  · simp only [splitFirst, hp, if_true]
  · simp only [splitFirst, eq_false_of_ne_true hp, if_false, Bool.false_eq_true]
    cases hs : splitFirst pat s with
    | none => rfl
    | some p => cases p; rfl

theorem splitFirst_decomp {pat s a b : List Char}
    (h : splitFirst pat s = some (a, b)) : s = a ++ pat ++ b := by
  induction s generalizing a b with
  | nil =>
    rw [splitFirst_nil] at h
    by_cases hp : pat.isEmpty = true
    · rw [if_pos hp] at h
      obtain ⟨rfl, rfl⟩ := Prod.mk.injEq .. ▸ Option.some.inj h
      simp [List.isEmpty_iff.mp hp]
    · rw [if_neg hp] at h
      cases h
  | cons c s ih =>
    rw [splitFirst_cons] at h
    by_cases hp : pat.isPrefixOf (c :: s) = true
    · rw [if_pos hp] at h
      have h2 := Option.some.inj h
      rw [Prod.mk.injEq] at h2
      obtain ⟨rfl, rfl⟩ := h2
      simpa using eq_append_drop_of_isPrefixOf hp
    · rw [if_neg hp] at h
      cases hs : splitFirst pat s with
      | none => rw [hs] at h; cases h
      | some p =>
        obtain ⟨a', b'⟩ := p
        rw [hs] at h
        have h2 := Option.some.inj h
        rw [Prod.mk.injEq] at h2
        obtain ⟨rfl, rfl⟩ := h2
        simpa using ih hs

theorem splitFirst_none_of_cons {pat : List Char} {c : Char} {s : List Char}
    (h : splitFirst pat (c :: s) = none) :
    pat.isPrefixOf (c :: s) = false ∧ splitFirst pat s = none := by
  rw [splitFirst_cons] at h
  by_cases hp : pat.isPrefixOf (c :: s) = true
  · rw [if_pos hp] at h; cases h
  · rw [if_neg hp] at h
    refine ⟨eq_false_of_ne_true hp, ?_⟩
    cases hs : splitFirst pat s with
    | none => rfl
    | some p => rw [hs] at h; cases h

/-- If `pat` does not occur in `x ++ y`, it does not occur in the suffix `y`. -/
theorem splitFirst_none_right {pat x y : List Char}
    (h : splitFirst pat (x ++ y) = none) : splitFirst pat y = none := by
  induction x with
  | nil => simpa using h
  | cons c x ih => exact ih (splitFirst_none_of_cons (by simpa using h)).2

/-- If `pat` does not occur in `x ++ y`, it does not occur in the prefix `x`. -/
theorem splitFirst_none_left {pat x y : List Char}
    (h : splitFirst pat (x ++ y) = none) (hpat : pat ≠ []) :
    splitFirst pat x = none := by
  induction x with
  | nil =>
    rw [splitFirst_nil, if_neg]
    simpa [List.isEmpty_iff] using hpat
  | cons c x ih =>
    obtain ⟨hp, hrest⟩ := splitFirst_none_of_cons (by simpa using h)
    rw [splitFirst_cons, if_neg, ih hrest]
    · rfl
    · intro hcontra
      have := isPrefixOf_append_of_isPrefixOf y hcontra
      rw [List.cons_append] at this
      rw [this] at hp
      cases hp

/-- The text before the first occurrence contains no earlier occurrence. -/
theorem splitFirst_first_none {pat s a b : List Char}
    (h : splitFirst pat s = some (a, b)) (hpat : pat ≠ []) :
    splitFirst pat a = none := by
  induction s generalizing a b with
  | nil =>
    rw [splitFirst_nil] at h
    by_cases hp : pat.isEmpty = true
    · exact absurd (List.isEmpty_iff.mp hp) hpat
    · rw [if_neg hp] at h; cases h
  | cons c s ih =>
    rw [splitFirst_cons] at h
    by_cases hp : pat.isPrefixOf (c :: s) = true
    · rw [if_pos hp] at h
      have h2 := Option.some.inj h
      rw [Prod.mk.injEq] at h2
      obtain ⟨rfl, rfl⟩ := h2
      rw [splitFirst_nil, if_neg]
      simpa [List.isEmpty_iff] using hpat
    · rw [if_neg hp] at h
      cases hs : splitFirst pat s with
      | none => rw [hs] at h; cases h
      | some p =>
        obtain ⟨a', b'⟩ := p
        rw [hs] at h
        have h2 := Option.some.inj h
        rw [Prod.mk.injEq] at h2
        obtain ⟨rfl, rfl⟩ := h2
        have ha' := ih hs
        rw [splitFirst_cons, if_neg, ha']
        · rfl
        · intro hcontra
          have hd := splitFirst_decomp hs
          have hx := isPrefixOf_append_of_isPrefixOf (pat ++ b') hcontra
          rw [List.cons_append, ← List.append_assoc, ← hd] at hx
          exact hp hx

theorem splitFirst_of_isPrefixOf {pat s : List Char} (hpat : pat ≠ [])
    (h : pat.isPrefixOf s = true) :
    splitFirst pat s = some ([], s.drop pat.length) := by
  cases s with
  | nil =>
    cases pat with
    | nil => exact absurd rfl hpat
    | cons p ps => cases h
  | cons c s => rw [splitFirst_cons, if_pos h]

theorem isTick_of_fence_isPrefixOf {c : Char} {x : List Char}
    (h : fence.isPrefixOf (c :: x) = true) : isTick c = true := by
  rw [List.isPrefixOf_iff_prefix] at h
  obtain ⟨t, ht⟩ := h
  cases hf : fence with
  | nil => exact absurd hf fence_ne_nil
  | cons f0 fr =>
    rw [hf, List.cons_append] at ht
    have h0 : f0 = c := (List.cons.inj ht).1
    subst h0
    simp [isTick, hf]

/-- The first fence in `a ++ fence ++ b` is the explicit one when `a` is
backtick-free. -/
theorem splitFirst_fence_append {a b : List Char}
    (ha : a.all (fun c => !isTick c) = true) :
    splitFirst fence (a ++ fence ++ b) = some (a, b) := by
  induction a with
  | nil =>
    rw [List.nil_append,
      splitFirst_of_isPrefixOf fence_ne_nil
        (by rw [List.isPrefixOf_iff_prefix]; exact List.prefix_append fence b),
      List.drop_left]
  | cons c a ih =>
    simp only [List.all_cons, Bool.and_eq_true, Bool.not_eq_true'] at ha
    obtain ⟨hc, ha2⟩ := ha
    have hnp : ¬fence.isPrefixOf (c :: (a ++ fence ++ b)) = true := by
      intro hcontra
      rw [isTick_of_fence_isPrefixOf hcontra] at hc
      cases hc
    rw [List.cons_append, List.cons_append, splitFirst_cons, if_neg hnp,
      ih ha2]
    rfl

/-! ### Decomposition of a regex match -/

theorem bodyAttempt_decomp {s c a b : List Char}
    (h : bodyAttempt s = some (c, a, b)) :
    s = c ++ b ∧ c = s.takeWhile jsSpace ++ a ++ fence ∧
      splitFirst fence a = none := by
  unfold bodyAttempt at h
  cases hs : splitFirst fence (s.dropWhile jsSpace) with
  | none => rw [hs] at h; cases h
  | some p =>
    obtain ⟨a', b'⟩ := p
    rw [hs] at h
    have h2 := Option.some.inj h
    rw [Prod.mk.injEq] at h2
    obtain ⟨rfl, h3⟩ := h2
    rw [Prod.mk.injEq] at h3
    obtain ⟨rfl, rfl⟩ := h3
    have hd := splitFirst_decomp hs
    refine ⟨?_, rfl, splitFirst_first_none hs fence_ne_nil⟩
    conv_lhs => rw [← List.takeWhile_append_dropWhile jsSpace s]
    rw [hd]
    simp [List.append_assoc]

theorem altsAttempt_spec {ts : List (List Char)} {s : List Char} {m : MatchInfo}
    (h : altsAttempt ts s = some m) :
    fence ++ s = m.raw ++ m.rest ∧ (∃ mid, m.raw = fence ++ (mid ++ fence)) ∧
      splitFirst fence m.body = none := by
  induction ts with
  | nil =>
    unfold altsAttempt at h
    cases hb : bodyAttempt s with
    | none => rw [hb] at h; cases h
    | some p =>
      obtain ⟨c, a, b⟩ := p
      rw [hb] at h
      cases h
      obtain ⟨hs, hc, hno⟩ := bodyAttempt_decomp hb
      refine ⟨?_, ⟨s.takeWhile jsSpace ++ a, ?_⟩, hno⟩
      · rw [List.append_assoc]
        exact congrArg (fence ++ ·) hs
      · exact congrArg (fence ++ ·) hc
  | cons t ts ih =>
    unfold altsAttempt at h
    by_cases hp : t.isPrefixOf s = true
    · rw [if_pos hp] at h
      cases hb : bodyAttempt (s.drop t.length) with
      | none => rw [hb] at h; exact ih h
      | some p =>
        obtain ⟨c, a, b⟩ := p
        rw [hb] at h
        cases h
        obtain ⟨hs, hc, hno⟩ := bodyAttempt_decomp hb
        refine ⟨?_, ⟨t ++ ((s.drop t.length).takeWhile jsSpace ++ a), ?_⟩, hno⟩
        · conv_lhs => rw [eq_append_drop_of_isPrefixOf hp, hs]
          simp [List.append_assoc]
        · rw [hc]
          simp [List.append_assoc]
    · rw [if_neg hp] at h
      exact ih h

theorem findMatch_cons_eq (c : Char) (s : List Char) :
    findMatch (c :: s) =
      match (if fence.isPrefixOf (c :: s) then
          altsAttempt knownTags ((c :: s).drop 3) else none) with
      | some m => some ([], m)
      | none => (findMatch s).map (fun pm => (c :: pm.1, pm.2)) := rfl

theorem findMatch_cons_some {c : Char} {s : List Char} {m' : MatchInfo}
    (ha : (if fence.isPrefixOf (c :: s) then
        altsAttempt knownTags ((c :: s).drop 3) else none) = some m') :
    findMatch (c :: s) = some ([], m') := by
  rw [findMatch_cons_eq, ha]

theorem findMatch_cons_none {c : Char} {s : List Char}
    (ha : (if fence.isPrefixOf (c :: s) then
        altsAttempt knownTags ((c :: s).drop 3) else none) = none) :
    findMatch (c :: s) = (findMatch s).map (fun pm => (c :: pm.1, pm.2)) := by
  rw [findMatch_cons_eq, ha]

theorem findMatch_decomp {s pre : List Char} {m : MatchInfo}
    (h : findMatch s = some (pre, m)) :
    s = pre ++ m.raw ++ m.rest ∧ (∃ mid, m.raw = fence ++ (mid ++ fence)) ∧
      splitFirst fence m.body = none := by
  induction s generalizing pre with
  | nil => cases h
  | cons c s ih =>
    by_cases hf : fence.isPrefixOf (c :: s) = true
    · cases ha : altsAttempt knownTags ((c :: s).drop 3) with
      | some m' =>
        rw [findMatch_cons_some (by rw [if_pos hf]; exact ha)] at h
        have h2 := Option.some.inj h
        rw [Prod.mk.injEq] at h2
        obtain ⟨rfl, rfl⟩ := h2
        obtain ⟨hs, hmid, hno⟩ := altsAttempt_spec ha
        refine ⟨?_, hmid, hno⟩
        have hlen : fence.length = 3 := rfl
        have h3 : (c :: s) = fence ++ (c :: s).drop 3 := by
          conv_lhs => rw [eq_append_drop_of_isPrefixOf hf]
          rw [hlen]
        rw [List.nil_append, ← hs, ← h3]
      | none =>
        rw [findMatch_cons_none (by rw [if_pos hf]; exact ha)] at h
        cases hm : findMatch s with
        | none => rw [hm] at h; cases h
        | some pm =>
          obtain ⟨pre', m'⟩ := pm
          rw [hm, Option.map_some'] at h
          have h2 := Option.some.inj h
          rw [Prod.mk.injEq] at h2
          obtain ⟨rfl, rfl⟩ := h2
          obtain ⟨hs, hmid, hno⟩ := ih hm
          refine ⟨?_, hmid, hno⟩
          rw [List.cons_append, List.cons_append, ← hs]
    · rw [findMatch_cons_none (by rw [if_neg hf])] at h
      cases hm : findMatch s with
      | none => rw [hm] at h; cases h
      | some pm =>
        obtain ⟨pre', m'⟩ := pm
        rw [hm, Option.map_some'] at h
        have h2 := Option.some.inj h
        rw [Prod.mk.injEq] at h2
        obtain ⟨rfl, rfl⟩ := h2
        obtain ⟨hs, hmid, hno⟩ := ih hm
        refine ⟨?_, hmid, hno⟩
        rw [List.cons_append, List.cons_append, ← hs]

theorem findMatch_rest_lt {s pre : List Char} {m : MatchInfo}
    (h : findMatch s = some (pre, m)) : m.rest.length < s.length := by
  obtain ⟨hs, ⟨mid, hmid⟩, -⟩ := findMatch_decomp h
  have hraw : m.raw.length ≠ 0 := by
    rw [hmid]
    simp [fence, str]
  have hlen : s.length = pre.length + m.raw.length + m.rest.length := by
    rw [hs]
    simp [List.length_append]
    omega
  omega

/-! ### Fuel irrelevance for the exec loop -/

theorem partsAux_nil (fuel : Nat) : partsAux fuel [] = [] := by
  cases fuel with
  | zero => rfl
  | succ f => rfl

theorem sourcesAux_nil (fuel : Nat) : sourcesAux fuel [] = [] := by
  cases fuel with
  | zero => rfl
  | succ f => rfl

theorem partsAux_succ (fuel : Nat) (s : List Char) :
    partsAux (fuel + 1) s =
      match findMatch s with
      | none => if s.isEmpty then [] else [Seg.markdown s]
      | some (pre, m) =>
        (if pre.isEmpty then [] else [Seg.markdown pre]) ++
          Seg.code (m.tag.getD (str "text")) (jsTrim m.body) ::
            partsAux fuel m.rest := rfl

theorem sourcesAux_succ (fuel : Nat) (s : List Char) :
    sourcesAux (fuel + 1) s =
      match findMatch s with
      | none => if s.isEmpty then [] else [s]
      | some (pre, m) =>
        (if pre.isEmpty then [] else [pre]) ++ m.raw :: sourcesAux fuel m.rest := rfl

theorem partsAux_fuel_irrel :
    ∀ (f g : Nat) (s : List Char), s.length ≤ f → s.length ≤ g →
      partsAux f s = partsAux g s := by
  intro f
  induction f with
  | zero =>
    intro g s hf hg
    have hs : s = [] := List.eq_nil_of_length_eq_zero (Nat.le_zero.mp hf)
    subst hs
    rw [partsAux_nil, partsAux_nil]
  | succ f ih =>
    intro g s hf hg
    cases g with
    | zero =>
      have hs : s = [] := List.eq_nil_of_length_eq_zero (Nat.le_zero.mp hg)
      subst hs
      rw [partsAux_nil, partsAux_nil]
    | succ g =>
      rw [partsAux_succ, partsAux_succ]
      cases hm : findMatch s with
      | none => rfl
      | some pm =>
        obtain ⟨pre, m⟩ := pm
        have hr := findMatch_rest_lt hm
        exact congrArg
          (fun l => (if pre.isEmpty then [] else [Seg.markdown pre]) ++
            Seg.code (m.tag.getD (str "text")) (jsTrim m.body) :: l)
          (ih g m.rest (by omega) (by omega))

theorem sourcesAux_fuel_irrel :
    ∀ (f g : Nat) (s : List Char), s.length ≤ f → s.length ≤ g →
      sourcesAux f s = sourcesAux g s := by
  intro f
  induction f with
  | zero =>
    intro g s hf hg
    have hs : s = [] := List.eq_nil_of_length_eq_zero (Nat.le_zero.mp hf)
    subst hs
    rw [sourcesAux_nil, sourcesAux_nil]
  | succ f ih =>
    intro g s hf hg
    cases g with
    | zero =>
      have hs : s = [] := List.eq_nil_of_length_eq_zero (Nat.le_zero.mp hg)
      subst hs
      rw [sourcesAux_nil, sourcesAux_nil]
    | succ g =>
      rw [sourcesAux_succ, sourcesAux_succ]
      cases hm : findMatch s with
      | none => rfl
      | some pm =>
        obtain ⟨pre, m⟩ := pm
        have hr := findMatch_rest_lt hm
        exact congrArg
          (fun l => (if pre.isEmpty then [] else [pre]) ++ m.raw :: l)
          (ih g m.rest (by omega) (by omega))

theorem formatMessageContent_eq_partsAux {fuel : Nat} {s : List Char}
    (h : s.length ≤ fuel) : formatMessageContent s = partsAux fuel s :=
  partsAux_fuel_irrel s.length fuel s le_rfl h

theorem segmentSources_eq_sourcesAux {fuel : Nat} {s : List Char}
    (h : s.length ≤ fuel) : segmentSources s = sourcesAux fuel s :=
  sourcesAux_fuel_irrel s.length fuel s le_rfl h

/-! ### Absence of a complete fence pair -/

theorem bodyAttempt_none_of_no_fence {s : List Char}
    (h : splitFirst fence s = none) : bodyAttempt s = none := by
  unfold bodyAttempt
  have hd : splitFirst fence (s.dropWhile jsSpace) = none := by
    have := List.takeWhile_append_dropWhile jsSpace s
    exact splitFirst_none_right (by rw [this]; exact h)
  rw [hd]

theorem altsAttempt_none_of_no_fence {ts : List (List Char)} {s : List Char}
    (h : splitFirst fence s = none) : altsAttempt ts s = none := by
  induction ts with
  | nil =>
    unfold altsAttempt
    rw [bodyAttempt_none_of_no_fence h]
  | cons t ts ih =>
    unfold altsAttempt
    by_cases hp : t.isPrefixOf s = true
    · rw [if_pos hp]
      have hdrop : splitFirst fence (s.drop t.length) = none := by
        have := List.take_append_drop t.length s
        exact splitFirst_none_right (by rw [this]; exact h)
      rw [bodyAttempt_none_of_no_fence hdrop]
      exact ih
    · rw [if_neg hp]
      exact ih

theorem findMatch_none_of_hasPair_false {s : List Char}
    (h : hasPair s = false) : findMatch s = none := by
  induction s with
  | nil => rfl
  | cons c s ih =>
    by_cases hf : fence.isPrefixOf (c :: s) = true
    · have hsp0 : splitFirst fence (c :: s) = some ([], (c :: s).drop 3) := by
        have := splitFirst_of_isPrefixOf fence_ne_nil hf
        simpa using this
      unfold hasPair at h
      rw [hsp0] at h
      have h' : (splitFirst fence ((c :: s).drop 3)).isSome = false := h
      have hsome : splitFirst fence ((c :: s).drop 3) = none := by
        cases hx : splitFirst fence ((c :: s).drop 3) with
        | none => rfl
        | some p => rw [hx] at h'; exact absurd h' (by simp)
      rw [findMatch_cons_none
        (by rw [if_pos hf, altsAttempt_none_of_no_fence hsome])]
      have hps : hasPair s = false := by
        cases hss : splitFirst fence s with
        | none => unfold hasPair; rw [hss]
        | some p =>
          obtain ⟨a, b⟩ := p
          have hd := splitFirst_decomp hss
          have hb : splitFirst fence b = none := by
            have h2 : (c :: s).drop 3 = s.drop 2 := rfl
            have h3 : s.drop 2 = (a ++ fence).drop 2 ++ b := by
              conv_lhs => rw [hd]
              rw [List.drop_append_of_le_length
                (by rw [List.length_append]
                    have h4 : fence.length = 3 := rfl
                    omega)]
            rw [h2, h3] at hsome
            exact splitFirst_none_right hsome
          unfold hasPair
          rw [hss]
          show (splitFirst fence b).isSome = false
          rw [hb]
          rfl
      rw [ih hps]
      rfl
    · rw [findMatch_cons_none (by rw [if_neg hf])]
      have hps : hasPair s = false := by
        cases hss : splitFirst fence s with
        | none => unfold hasPair; rw [hss]
        | some p =>
          obtain ⟨a, b⟩ := p
          have h' : hasPair (c :: s) = (splitFirst fence b).isSome := by
            unfold hasPair
            rw [splitFirst_cons, if_neg hf, hss]
            rfl
          unfold hasPair
          rw [hss]
          show (splitFirst fence b).isSome = false
          rw [← h']
          exact h
      rw [ih hps]
      rfl

/-! ### Coverage of the input by segment sources -/

theorem coverAux : ∀ (fuel : Nat) (s : List Char), s.length ≤ fuel →
    (sourcesAux fuel s).flatten = s ∧
      List.Forall₂ SegSrc (partsAux fuel s) (sourcesAux fuel s) := by
  intro fuel
  induction fuel with
  | zero =>
    intro s hs
    have hnil : s = [] := List.eq_nil_of_length_eq_zero (Nat.le_zero.mp hs)
    subst hnil
    exact ⟨rfl, List.Forall₂.nil⟩
  | succ f ih =>
    intro s hs
    rw [partsAux_succ, sourcesAux_succ]
    cases hm : findMatch s with
    | none =>
      cases s with
      | nil => exact ⟨rfl, List.Forall₂.nil⟩
      | cons c t =>
        refine ⟨by simp, ?_⟩
        show List.Forall₂ SegSrc [Seg.markdown (c :: t)] [c :: t]
        exact List.Forall₂.cons rfl List.Forall₂.nil
    | some pm =>
      obtain ⟨pre, m⟩ := pm
      obtain ⟨hdec, hmid, -⟩ := findMatch_decomp hm
      have hrl := findMatch_rest_lt hm
      obtain ⟨hflat, hfor⟩ := ih m.rest (by omega)
      by_cases hpre : pre.isEmpty = true
      · have hpre' : pre = [] := List.isEmpty_iff.mp hpre
        subst hpre'
        refine ⟨?_, ?_⟩
        · show (m.raw :: sourcesAux f m.rest).flatten = s
          rw [List.flatten_cons, hflat]
          rw [hdec, List.nil_append]
        · show List.Forall₂ SegSrc
            (Seg.code (m.tag.getD (str "text")) (jsTrim m.body) :: partsAux f m.rest)
            (m.raw :: sourcesAux f m.rest)
          exact List.Forall₂.cons hmid hfor
      · simp only [if_neg hpre]
        refine ⟨?_, ?_⟩
        · rw [List.singleton_append, List.flatten_cons, List.flatten_cons, hflat]
          rw [hdec]
          simp [List.append_assoc]
        · rw [List.singleton_append, List.singleton_append]
          exact List.Forall₂.cons rfl (List.Forall₂.cons hmid hfor)

/-! ### Claim theorems -/

/-- C1 (counterexample): re-inserting the fences around the code segments,
as the claim describes, does not reproduce the well-formed input
`"(fence)js\nfoo()\n(fence)"`: the segmenter discards the whitespace after
the language tag (consumed by `\s*`) and the whitespace trimmed from the
code body, so the reassembly yields `"(fence)jsfoo()(fence)"`. -/
theorem roundTrip_cex :
    formatMessageContent (str "```js\nfoo()\n```") =
      [Seg.code (str "js") (str "foo()")] ∧
      roundTripReassembly [Seg.code (str "js") (str "foo()")] ≠
        str "```js\nfoo()\n```" := by
  constructor
  · decide
  · decide

/-- C1 (amended): the segments, taken with their source spans, cover the
entire input in order with no gaps and no overlaps: concatenating, for each
markdown segment its content and for each code segment its raw matched
fenced block, reproduces the input exactly; each code segment's source span
is a complete triple-backtick fenced block. -/
theorem segment_sources_cover (s : List Char) :
    (segmentSources s).flatten = s ∧
      List.Forall₂ SegSrc (formatMessageContent s) (segmentSources s) :=
  coverAux s.length s le_rfl

/-- C2 (counterexample): for the input `"(fence)ruby\nx\n(fence)"`, whose
language tag `ruby` is outside the recognized set, the produced code
segment has language `"text"` and the tag text is folded into the code
body; no segment carries the tag `"ruby"` verbatim. -/
theorem unknownTag_not_captured_cex :
    formatMessageContent (str "```ruby\nx\n```") =
      [Seg.code (str "text") (str "ruby\nx")] ∧ str "text" ≠ str "ruby" := by
  constructor
  · decide
  · decide

theorem markdown_whole_of_no_pair {s : List Char} (h1 : s ≠ [])
    (h2 : hasPair s = false) : formatMessageContent s = [Seg.markdown s] := by
  have hm := findMatch_none_of_hasPair_false h2
  cases s with
  | nil => exact absurd rfl h1
  | cons c t =>
    unfold formatMessageContent
    have hlen : (c :: t).length = t.length + 1 := rfl
    rw [hlen, partsAux_succ, hm]
    rfl

/-- C3: a non-empty input with no complete triple-backtick fence pair is
returned as exactly one markdown segment holding the input verbatim. -/
theorem no_fence_pair_single_markdown (s : List Char) (h1 : s ≠ [])
    (h2 : hasPair s = false) : formatMessageContent s = [Seg.markdown s] :=
  markdown_whole_of_no_pair h1 h2

theorem no_fence_pair_single_markdown_witness :
    str "hello" ≠ [] ∧ hasPair (str "hello") = false ∧
      formatMessageContent (str "hello") = [Seg.markdown (str "hello")] :=
  ⟨by decide, by decide,
    no_fence_pair_single_markdown (str "hello") (by decide) (by decide)⟩

theorem hasFence_ne_nil {s : List Char} (h : hasFence s = true) : s ≠ [] := by
  intro hnil
  subst hnil
  exact absurd h (by decide)

/-- C4: an input that contains a fence but no complete fence pair (so every
opening fence is unterminated) is returned as one markdown segment holding
the entire original string unchanged — the unterminated fence is not turned
into a code segment, and no failure occurs (the segmenter is a total
function). -/
theorem unterminated_fence_markdown (s : List Char) (h0 : hasFence s = true)
    (h2 : hasPair s = false) : formatMessageContent s = [Seg.markdown s] :=
  markdown_whole_of_no_pair (hasFence_ne_nil h0) h2

theorem unterminated_fence_markdown_witness :
    hasFence (str "text ```js\nfoo()") = true ∧
      hasPair (str "text ```js\nfoo()") = false ∧
      formatMessageContent (str "text ```js\nfoo()") =
        [Seg.markdown (str "text ```js\nfoo()")] :=
  ⟨by decide, by decide,
    unterminated_fence_markdown (str "text ```js\nfoo()") (by decide) (by decide)⟩

/-! ### Tick-free strings and the fence -/

theorem head_eq_of_cons_isPrefixOf {c d : Char} {t u : List Char}
    (h : (c :: t).isPrefixOf (d :: u) = true) : c = d := by
  rw [List.isPrefixOf_cons₂, Bool.and_eq_true] at h
  exact eq_of_beq h.1

theorem isTick_head_fence_append {c : Char} {t z : List Char}
    (h : (c :: t).isPrefixOf (fence ++ z) = true) : isTick c = true := by
  cases hf : fence with
  | nil => exact absurd hf fence_ne_nil
  | cons f0 fr =>
    rw [hf, List.cons_append] at h
    have hcd := head_eq_of_cons_isPrefixOf h
    subst hcd
    simp [isTick, hf]

theorem not_isPrefixOf_fence_append {t : List Char} :
    ∀ {body z : List Char}, t.all (fun c => !isTick c) = true →
      t.isPrefixOf (body ++ fence ++ z) = true → t.isPrefixOf body = false →
        False := by
  induction t with
  | nil =>
    intro body z _ _ hf
    rw [List.isPrefixOf_iff_prefix.mpr (List.nil_prefix)] at hf
    cases hf
  | cons c t ih =>
    intro body z hall hpre hnot
    simp only [List.all_cons, Bool.and_eq_true, Bool.not_eq_true'] at hall
    obtain ⟨hc, hall⟩ := hall
    cases body with
    | nil =>
      rw [isTick_head_fence_append hpre] at hc
      cases hc
    | cons d body' =>
      rw [List.cons_append, List.cons_append, List.isPrefixOf_cons₂,
        Bool.and_eq_true] at hpre
      rw [List.isPrefixOf_cons₂] at hnot
      obtain ⟨hcd, hpre2⟩ := hpre
      rw [hcd, Bool.true_and] at hnot
      exact ih hall hpre2 hnot

theorem dropWhile_fence_append (z : List Char) :
    (fence ++ z).dropWhile jsSpace = fence ++ z := rfl

theorem takeWhile_fence_append (z : List Char) :
    (fence ++ z).takeWhile jsSpace = [] := rfl

theorem all_dropWhile_of_all {p q : Char → Bool} {l : List Char}
    (h : l.all q = true) : (l.dropWhile p).all q = true := by
  have h2 : (l.takeWhile p ++ l.dropWhile p).all q = true := by
    rw [List.takeWhile_append_dropWhile]
    exact h
  rw [List.all_append, Bool.and_eq_true] at h2
  exact h2.2

theorem all_drop_of_all {q : Char → Bool} {l : List Char} (n : Nat)
    (h : l.all q = true) : (l.drop n).all q = true := by
  have h2 : (l.take n ++ l.drop n).all q = true := by
    rw [List.take_append_drop]
    exact h
  rw [List.all_append, Bool.and_eq_true] at h2
  exact h2.2

theorem dropWhile_dropWhile_self (p : Char → Bool) (l : List Char) :
    (l.dropWhile p).dropWhile p = l.dropWhile p := by
  induction l with
  | nil => rfl
  | cons a l ih =>
    by_cases hp : p a = true
    · rw [List.dropWhile_cons, if_pos hp]
      exact ih
    · rw [List.dropWhile_cons, if_neg hp, List.dropWhile_cons, if_neg hp]

theorem jsTrim_dropWhile (x : List Char) :
    jsTrim (x.dropWhile jsSpace) = jsTrim x := by
  unfold jsTrim
  rw [dropWhile_dropWhile_self]

theorem splitFirst_none_jsTrim {x : List Char}
    (h : splitFirst fence x = none) : splitFirst fence (jsTrim x) = none := by
  have hz : splitFirst fence (x.dropWhile jsSpace) = none :=
    splitFirst_none_right (x := x.takeWhile jsSpace)
      (by rw [List.takeWhile_append_dropWhile]; exact h)
  have hdecomp : x.dropWhile jsSpace =
      jsTrim x ++ ((x.dropWhile jsSpace).reverse.takeWhile jsSpace).reverse := by
    unfold jsTrim
    conv_lhs =>
      rw [← List.reverse_reverse (x.dropWhile jsSpace),
        ← List.takeWhile_append_dropWhile jsSpace (x.dropWhile jsSpace).reverse]
    rw [List.reverse_append]
  exact splitFirst_none_left (by rw [← hdecomp]; exact hz) fence_ne_nil

theorem dropWhile_append_fence (body z : List Char) :
    (body ++ fence ++ z).dropWhile jsSpace =
      body.dropWhile jsSpace ++ fence ++ z := by
  rw [List.append_assoc, List.dropWhile_append]
  by_cases he : (body.dropWhile jsSpace).isEmpty = true
  · rw [if_pos he, dropWhile_fence_append, List.isEmpty_iff.mp he,
      List.nil_append]
  · rw [if_neg he, List.append_assoc]

theorem altsAttempt_fence_block :
    ∀ (ts : List (List Char)) (body rest : List Char),
      (∀ t ∈ ts, t.all (fun c => !isTick c) = true) →
      body.all (fun c => !isTick c) = true →
      ∃ raw, altsAttempt ts (body ++ fence ++ rest) =
        some ⟨ts.find? (fun t => t.isPrefixOf body),
          (body.drop (((ts.find? (fun t => t.isPrefixOf body)).getD []).length)).dropWhile
            jsSpace,
          raw, rest⟩ := by
  intro ts
  induction ts with
  | nil =>
    intro body rest hts hbody
    exact ⟨_, by
      unfold altsAttempt bodyAttempt
      rw [dropWhile_append_fence,
        splitFirst_fence_append (all_dropWhile_of_all hbody)]
      rfl⟩
  | cons t ts ih =>
    intro body rest hts hbody
    by_cases hp : t.isPrefixOf body = true
    · have hp' : t.isPrefixOf (body ++ fence ++ rest) = true := by
        rw [List.append_assoc]
        exact isPrefixOf_append_of_isPrefixOf _ hp
      have hlen : t.length ≤ body.length :=
        (List.isPrefixOf_iff_prefix.mp hp).length_le
      have hdrop : (body ++ fence ++ rest).drop t.length =
          body.drop t.length ++ fence ++ rest := by
        rw [List.append_assoc, List.drop_append_of_le_length hlen,
          List.append_assoc]
      exact ⟨_, by
        unfold altsAttempt bodyAttempt
        rw [if_pos hp', hdrop, dropWhile_append_fence,
          splitFirst_fence_append (all_dropWhile_of_all (all_drop_of_all _ hbody)),
          @List.find?_cons_of_pos _ (fun u => u.isPrefixOf body) t ts hp]
        rfl⟩
    · have hp' : t.isPrefixOf (body ++ fence ++ rest) = false := by
        cases hx : t.isPrefixOf (body ++ fence ++ rest) with
        | false => rfl
        | true =>
          exact (not_isPrefixOf_fence_append (hts t (List.mem_cons_self t ts)) hx
            (eq_false_of_ne_true hp)).elim
      obtain ⟨raw, hrec⟩ :=
        ih body rest (fun t' ht' => hts t' (List.mem_cons_of_mem t ht')) hbody
      refine ⟨raw, ?_⟩
      unfold altsAttempt
      rw [if_neg (by rw [hp']; simp),
        @List.find?_cons_of_neg _ (fun u => u.isPrefixOf body) t ts hp]
      exact hrec

theorem fence_isPrefixOf_nil : fence.isPrefixOf ([] : List Char) = false := by
  decide

theorem findMatch_tickfree_fence {pre : List Char} :
    ∀ {v : List Char} {m : MatchInfo},
      pre.all (fun c => !isTick c) = true →
      fence.isPrefixOf v = true →
      altsAttempt knownTags (v.drop 3) = some m →
      findMatch (pre ++ v) = some (pre, m) := by
  induction pre with
  | nil =>
    intro v m _ hv ha
    cases v with
    | nil => rw [fence_isPrefixOf_nil] at hv; cases hv
    | cons c w =>
      rw [List.nil_append]
      exact findMatch_cons_some (by rw [if_pos hv]; exact ha)
  | cons c pre ih =>
    intro v m hall hv ha
    simp only [List.all_cons, Bool.and_eq_true, Bool.not_eq_true'] at hall
    obtain ⟨hc, hall⟩ := hall
    have hnf : fence.isPrefixOf (c :: (pre ++ v)) = false := by
      cases hx : fence.isPrefixOf (c :: (pre ++ v)) with
      | false => rfl
      | true => rw [isTick_of_fence_isPrefixOf hx] at hc; cases hc
    rw [List.cons_append,
      findMatch_cons_none (by rw [if_neg (by rw [hnf]; simp)]),
      ih hall hv ha, Option.map_some']

/-- The behaviour of the segmenter on a complete, backtick-free fence
block surrounded by a backtick-free preamble and an arbitrary remainder:
the preamble (when non-empty) becomes a markdown part, the block becomes a
code part whose language is the first recognized alternative that
textually matches (or `"text"`), whose content is the trimmed remainder of
the block after the captured tag, and segmentation continues on the
remainder. -/
theorem fence_block_parts (pre body rest : List Char)
    (hpre : pre.all (fun c => !isTick c) = true)
    (hbody : body.all (fun c => !isTick c) = true) :
    formatMessageContent (pre ++ fence ++ body ++ fence ++ rest) =
      (if pre.isEmpty then [] else [Seg.markdown pre]) ++
        Seg.code ((findTag body).getD (str "text"))
          (jsTrim (body.drop (((findTag body).getD []).length))) ::
          formatMessageContent rest := by
  obtain ⟨raw, hma⟩ := altsAttempt_fence_block knownTags body rest
    (by decide) hbody
  have hv : fence.isPrefixOf (fence ++ (body ++ fence ++ rest)) = true :=
    List.isPrefixOf_iff_prefix.mpr (List.prefix_append _ _)
  have hflen : fence.length = 3 := rfl
  have hdrop3 : (fence ++ (body ++ fence ++ rest)).drop 3 =
      body ++ fence ++ rest := by
    rw [← hflen, List.drop_left]
  have hfm : findMatch (pre ++ (fence ++ (body ++ fence ++ rest))) =
      some (pre, ⟨findTag body,
        (body.drop (((findTag body).getD []).length)).dropWhile jsSpace,
        raw, rest⟩) :=
    findMatch_tickfree_fence hpre hv (by rw [hdrop3]; exact hma)
  have hinput : pre ++ fence ++ body ++ fence ++ rest =
      pre ++ (fence ++ (body ++ fence ++ rest)) := by
    simp [List.append_assoc]
  rw [hinput]
  have hslen : (pre ++ (fence ++ (body ++ fence ++ rest))).length =
      pre.length + body.length + rest.length + 6 := by
    simp [List.length_append, hflen]
    omega
  have hpos : 1 ≤ (pre ++ (fence ++ (body ++ fence ++ rest))).length := by
    omega
  obtain ⟨n, hn⟩ : ∃ n, (pre ++ (fence ++ (body ++ fence ++ rest))).length
      = n + 1 := ⟨_, (Nat.succ_pred_eq_of_pos hpos).symm⟩
  rw [formatMessageContent_eq_partsAux (le_of_eq hn), partsAux_succ]
  rw [hfm]
  show (if pre.isEmpty then [] else [Seg.markdown pre]) ++
      Seg.code ((findTag body).getD (str "text"))
        (jsTrim ((body.drop (((findTag body).getD []).length)).dropWhile jsSpace)) ::
        partsAux n rest = _
  rw [jsTrim_dropWhile,
    ← formatMessageContent_eq_partsAux (show rest.length ≤ n by omega)]

/-- C7: a complete fence block whose opening fence declares no language tag
(no recognized alternative textually matches the block's interior) yields a
code segment with language `"text"`. -/
theorem no_tag_defaults_text (pre body rest : List Char)
    (hpre : pre.all (fun c => !isTick c) = true)
    (hbody : body.all (fun c => !isTick c) = true)
    (htag : findTag body = none) :
    formatMessageContent (pre ++ fence ++ body ++ fence ++ rest) =
      (if pre.isEmpty then [] else [Seg.markdown pre]) ++
        Seg.code (str "text") (jsTrim body) :: formatMessageContent rest := by
  rw [fence_block_parts pre body rest hpre hbody, htag]
  rfl

theorem no_tag_defaults_text_witness :
    (([] : List Char).all (fun c => !isTick c) = true) ∧
      ((str "\nx=1\n").all (fun c => !isTick c) = true) ∧
      findTag (str "\nx=1\n") = none ∧
      formatMessageContent ([] ++ fence ++ str "\nx=1\n" ++ fence ++ []) =
        (if ([] : List Char).isEmpty then [] else [Seg.markdown []]) ++
          Seg.code (str "text") (jsTrim (str "\nx=1\n")) ::
            formatMessageContent [] :=
  ⟨by decide, by decide, by decide,
    no_tag_defaults_text [] (str "\nx=1\n") [] (by decide) (by decide)
      (by decide)⟩

/-- C2 (amended): a complete fence block whose declared tag is outside the
recognized set (no recognized alternative is a textual prefix of the
block's interior) does not pass the tag through: the code segment's
language is `"text"` and the tag text is folded into the trimmed code
body. -/
theorem unknownTag_folded_into_body (pre tag bodyRest rest : List Char)
    (hpre : pre.all (fun c => !isTick c) = true)
    (hbody : (tag ++ bodyRest).all (fun c => !isTick c) = true)
    (hunrec : findTag (tag ++ bodyRest) = none) :
    formatMessageContent (pre ++ fence ++ (tag ++ bodyRest) ++ fence ++ rest) =
      (if pre.isEmpty then [] else [Seg.markdown pre]) ++
        Seg.code (str "text") (jsTrim (tag ++ bodyRest)) ::
          formatMessageContent rest := by
  rw [fence_block_parts pre (tag ++ bodyRest) rest hpre hbody, hunrec]
  rfl

theorem unknownTag_folded_into_body_witness :
    (([] : List Char).all (fun c => !isTick c) = true) ∧
      ((str "ruby" ++ str "\nx\n").all (fun c => !isTick c) = true) ∧
      findTag (str "ruby" ++ str "\nx\n") = none ∧
      formatMessageContent
          ([] ++ fence ++ (str "ruby" ++ str "\nx\n") ++ fence ++ []) =
        (if ([] : List Char).isEmpty then [] else [Seg.markdown []]) ++
          Seg.code (str "text") (jsTrim (str "ruby" ++ str "\nx\n")) ::
            formatMessageContent [] :=
  ⟨by decide, by decide, by decide,
    unknownTag_folded_into_body [] (str "ruby") (str "\nx\n") [] (by decide)
      (by decide) (by decide)⟩

/-! ### Structural invariants of the produced segment list -/

theorem noAdjacentMarkdown_code_cons (lang c : List Char) (rest : List Seg) :
    noAdjacentMarkdown (Seg.code lang c :: rest) = noAdjacentMarkdown rest := by
  cases rest with
  | nil => rfl
  | cons b r =>
    show (!(isMd (Seg.code lang c) && isMd b) && noAdjacentMarkdown (b :: r)) =
      noAdjacentMarkdown (b :: r)
    rw [show isMd (Seg.code lang c) = false from rfl]
    simp

theorem noAdjacentMarkdown_cons_code_cons (a : Seg) (lang c : List Char)
    (rest : List Seg) :
    noAdjacentMarkdown (a :: Seg.code lang c :: rest) =
      noAdjacentMarkdown (Seg.code lang c :: rest) := by
  show (!(isMd a && isMd (Seg.code lang c)) &&
      noAdjacentMarkdown (Seg.code lang c :: rest)) = _
  rw [show isMd (Seg.code lang c) = false from rfl]
  simp

theorem c9Aux : ∀ (fuel : Nat) (s : List Char), s.length ≤ fuel →
    (partsAux fuel s).all mdNonemptyOk = true ∧
      noAdjacentMarkdown (partsAux fuel s) = true := by
  intro fuel
  induction fuel with
  | zero =>
    intro s hs
    have hnil : s = [] := List.eq_nil_of_length_eq_zero (Nat.le_zero.mp hs)
    subst hnil
    exact ⟨rfl, rfl⟩
  | succ f ih =>
    intro s hs
    rw [partsAux_succ]
    cases hm : findMatch s with
    | none =>
      cases s with
      | nil => exact ⟨rfl, rfl⟩
      | cons c t =>
        constructor
        · show ([Seg.markdown (c :: t)]).all mdNonemptyOk = true
          simp [mdNonemptyOk]
        · rfl
    | some pm =>
      obtain ⟨pre, m⟩ := pm
      have hrl := findMatch_rest_lt hm
      obtain ⟨ih1, ih2⟩ := ih m.rest (by omega)
      by_cases hpre : pre.isEmpty = true
      · have hpre' : pre = [] := List.isEmpty_iff.mp hpre
        subst hpre'
        constructor
        · show (Seg.code (m.tag.getD (str "text")) (jsTrim m.body) ::
              partsAux f m.rest).all mdNonemptyOk = true
          rw [List.all_cons,
            show mdNonemptyOk
              (Seg.code (m.tag.getD (str "text")) (jsTrim m.body)) = true
              from rfl,
            Bool.true_and]
          exact ih1
        · show noAdjacentMarkdown (Seg.code (m.tag.getD (str "text"))
              (jsTrim m.body) :: partsAux f m.rest) = true
          rw [noAdjacentMarkdown_code_cons]
          exact ih2
      · simp only [if_neg hpre, List.singleton_append]
        constructor
        · rw [List.all_cons,
            show mdNonemptyOk (Seg.markdown pre) = !pre.isEmpty from rfl,
            eq_false_of_ne_true hpre, List.all_cons,
            show mdNonemptyOk
              (Seg.code (m.tag.getD (str "text")) (jsTrim m.body)) = true
              from rfl,
            Bool.true_and]
          rw [ih1]
          rfl
        · rw [noAdjacentMarkdown_cons_code_cons, noAdjacentMarkdown_code_cons]
          exact ih2

/-- C9: every markdown segment produced has non-empty content, and no two
markdown segments are adjacent in the output (consecutive code blocks yield
adjacent code segments with no empty markdown between them). -/
theorem markdown_segments_nonempty_nonadjacent (s : List Char) :
    (formatMessageContent s).all mdNonemptyOk = true ∧
      noAdjacentMarkdown (formatMessageContent s) = true :=
  c9Aux s.length s le_rfl

theorem c8Aux : ∀ (fuel : Nat) (s : List Char), s.length ≤ fuel →
    codeContentsFenceFree (partsAux fuel s) = true := by
  intro fuel
  induction fuel with
  | zero =>
    intro s hs
    have hnil : s = [] := List.eq_nil_of_length_eq_zero (Nat.le_zero.mp hs)
    subst hnil
    rfl
  | succ f ih =>
    intro s hs
    rw [partsAux_succ]
    cases hm : findMatch s with
    | none =>
      cases s with
      | nil => rfl
      | cons c t => rfl
    | some pm =>
      obtain ⟨pre, m⟩ := pm
      have hrl := findMatch_rest_lt hm
      obtain ⟨-, -, hno⟩ := findMatch_decomp hm
      have hclean := splitFirst_none_jsTrim hno
      have ihr := ih m.rest (by omega)
      by_cases hpre : pre.isEmpty = true
      · have hpre' : pre = [] := List.isEmpty_iff.mp hpre
        subst hpre'
        show (!(splitFirst fence (jsTrim m.body)).isSome &&
            codeContentsFenceFree (partsAux f m.rest)) = true
        rw [hclean, ihr]
        rfl
      · simp only [if_neg hpre, List.singleton_append]
        show codeContentsFenceFree (Seg.code (m.tag.getD (str "text"))
            (jsTrim m.body) :: partsAux f m.rest) = true
        show (!(splitFirst fence (jsTrim m.body)).isSome &&
            codeContentsFenceFree (partsAux f m.rest)) = true
        rw [hclean, ihr]
        rfl

/-- C8: a code segment's content never contains the triple-backtick fence
delimiter: the enclosing fences (and the opening tag line's markers) are
excluded from the content. -/
theorem code_content_no_fence (s : List Char) :
    codeContentsFenceFree (formatMessageContent s) = true :=
  c8Aux s.length s le_rfl

/-! ### Copy acknowledgment timing and clipboard failure -/

/-- C5 (counterexample): with a copy on segment 0 at t = 0 ms and a copy on
segment 1 at t = 1000 ms, segment 1's acknowledgment is still shown at
1999 ms but is already cleared at 2000 ms — by the timer of the FIRST copy,
which is never cancelled — even though segment 1's own 2000 ms (until
3000 ms) have not elapsed.  The claim that a second segment's
acknowledgment still lasts its full 2000 ms is therefore false. -/
theorem second_copy_cut_short_cex :
    flagsAt [(0, 0), (1000, 1)] 1999 = some 1 ∧
      flagsAt [(0, 0), (1000, 1)] 2000 = none ∧ 2000 < 1000 + 2000 :=
  ⟨by decide, by decide, by decide⟩

/-- C5 (amended): a copy acknowledgment is set immediately on clipboard
success and, in the absence of other copies, reverts after exactly 2000 ms;
at most one segment's acknowledgment is active at any time (structural in
`copySuccess`, replaced wholesale), and a second copy clears the first
segment's flag immediately; but scheduled resets are never cancelled, so
the second acknowledgment is cleared when the first copy's 2000 ms timer
fires, possibly before the second copy's own 2000 ms elapse. -/
theorem copy_ack_timing (t0 i0 t1 i1 t : Nat) :
    (t0 ≤ t → t < t0 + 2000 → flagsAt [(t0, i0)] t = some i0) ∧
    (t0 + 2000 ≤ t → flagsAt [(t0, i0)] t = none) ∧
    (t0 < t1 → t1 ≤ t → t < t0 + 2000 →
      flagsAt [(t0, i0), (t1, i1)] t = some i1) ∧
    (t0 < t1 → t1 < t0 + 2000 → t0 + 2000 ≤ t →
      flagsAt [(t0, i0), (t1, i1)] t = none) := by
  refine ⟨?_, ?_, ?_, ?_⟩
  · intro h1 h2
    unfold flagsAt
    rw [List.filter_cons, if_pos (by simpa using h1)]
    show (fireDue ⟨some i0, [t0 + 2000]⟩ t).flags = some i0
    unfold fireDue
    rw [show ([t0 + 2000].any (fun d => decide (d ≤ t))) = false from by
      simp only [List.any_cons, List.any_nil, Bool.or_false]
      exact decide_eq_false (by omega)]
    rfl
  · intro h1
    unfold flagsAt
    rw [List.filter_cons, if_pos (by simp; omega)]
    show (fireDue ⟨some i0, [t0 + 2000]⟩ t).flags = none
    unfold fireDue
    rw [show ([t0 + 2000].any (fun d => decide (d ≤ t))) = true from by
      simp only [List.any_cons, List.any_nil, Bool.or_false]
      exact decide_eq_true (by omega)]
    rfl
  · intro h0 h1 h2
    unfold flagsAt
    rw [List.filter_cons, if_pos (by simp; omega),
      List.filter_cons, if_pos (by simp; omega)]
    show (fireDue (runCopies initCopyState [(t0, i0), (t1, i1)]) t).flags =
      some i1
    have e3 : fireDue ⟨some i0, [t0 + 2000]⟩ t1 = ⟨some i0, [t0 + 2000]⟩ := by
      unfold fireDue
      rw [show ([t0 + 2000].any (fun d => decide (d ≤ t1))) = false from by
        simp only [List.any_cons, List.any_nil, Bool.or_false]
        exact decide_eq_false (by omega)]
      rw [show ([t0 + 2000].filter (fun d => decide (t1 < d))) = [t0 + 2000]
        from by
          simp only [List.filter_cons, List.filter_nil]
          rw [if_pos (by simpa using decide_eq_true (show t1 < t0 + 2000 by omega))]]
      rfl
    have hrun : runCopies initCopyState [(t0, i0), (t1, i1)] =
        ⟨some i1, [t0 + 2000, t1 + 2000]⟩ := by
      show runCopies ⟨some i0, [t0 + 2000]⟩ [(t1, i1)] = _
      show (pressCopy (fireDue ⟨some i0, [t0 + 2000]⟩ t1) t1 i1 true).1 = _
      rw [e3]
      rfl
    rw [hrun]
    unfold fireDue
    rw [show ([t0 + 2000, t1 + 2000].any (fun d => decide (d ≤ t))) = false
      from by
        simp only [List.any_cons, List.any_nil, Bool.or_false]
        rw [decide_eq_false (show ¬(t0 + 2000 ≤ t) by omega),
          decide_eq_false (show ¬(t1 + 2000 ≤ t) by omega)]
        rfl]
    rfl
  · intro h0 h1 h2
    unfold flagsAt
    rw [List.filter_cons, if_pos (by simp; omega),
      List.filter_cons, if_pos (by simp; omega)]
    show (fireDue (runCopies initCopyState [(t0, i0), (t1, i1)]) t).flags =
      none
    have e3 : fireDue ⟨some i0, [t0 + 2000]⟩ t1 = ⟨some i0, [t0 + 2000]⟩ := by
      unfold fireDue
      rw [show ([t0 + 2000].any (fun d => decide (d ≤ t1))) = false from by
        simp only [List.any_cons, List.any_nil, Bool.or_false]
        exact decide_eq_false (by omega)]
      rw [show ([t0 + 2000].filter (fun d => decide (t1 < d))) = [t0 + 2000]
        from by
          simp only [List.filter_cons, List.filter_nil]
          rw [if_pos (by simpa using decide_eq_true (show t1 < t0 + 2000 by omega))]]
      rfl
    have hrun : runCopies initCopyState [(t0, i0), (t1, i1)] =
        ⟨some i1, [t0 + 2000, t1 + 2000]⟩ := by
      show runCopies ⟨some i0, [t0 + 2000]⟩ [(t1, i1)] = _
      show (pressCopy (fireDue ⟨some i0, [t0 + 2000]⟩ t1) t1 i1 true).1 = _
      rw [e3]
      rfl
    rw [hrun]
    unfold fireDue
    rw [show ([t0 + 2000, t1 + 2000].any (fun d => decide (d ≤ t))) = true
      from by
        simp only [List.any_cons, List.any_nil, Bool.or_false]
        rw [decide_eq_true (show t0 + 2000 ≤ t by omega)]
        rfl]
    rfl

theorem copy_ack_timing_witness :
    flagsAt [(0, 5)] 1999 = some 5 ∧ flagsAt [(0, 5)] 2000 = none ∧
      flagsAt [(0, 5), (1000, 7)] 1500 = some 7 ∧
      flagsAt [(0, 5), (1000, 7)] 2100 = none :=
  ⟨(copy_ack_timing 0 5 1000 7 1999).1 (by decide) (by decide),
   (copy_ack_timing 0 5 1000 7 2000).2.1 (by decide),
   (copy_ack_timing 0 5 1000 7 1500).2.2.1 (by decide) (by decide) (by decide),
   (copy_ack_timing 0 5 1000 7 2100).2.2.2 (by decide) (by decide) (by decide)⟩

/-- C6 (counterexample): a failing clipboard write at the copy button
leaves the acknowledgment state untouched, but the promise rejection is
NOT handled — `.then` is given no rejection handler and no `.catch` is
attached — so an unhandled promise rejection escapes the handler,
contradicting the claim. -/
theorem clipboard_failure_unhandled_cex :
    (pressCopy initCopyState 0 0 false).2 = true ∧
      (pressCopy initCopyState 0 0 false).1 = initCopyState :=
  ⟨rfl, rfl⟩

/-- C6 (amended): on clipboard failure the acknowledgment flag is never
set and the whole copy state is unchanged (the success callback never
runs), but the rejection escapes as an unhandled promise rejection. -/
theorem clipboard_failure_no_flag (st : CopyState) (now i : Nat) :
    pressCopy st now i false = (st, true) := rfl

/-! ### Blank messages are not sent -/

theorem jsTrim_eq_nil_of_all_space {content : List Char}
    (h : content.all jsSpace = true) : jsTrim content = [] := by
  unfold jsTrim
  have hdw : content.dropWhile jsSpace = [] := by
    induction content with
    | nil => rfl
    | cons c cs ih =>
      simp only [List.all_cons, Bool.and_eq_true] at h
      rw [List.dropWhile_cons, if_pos h.1]
      exact ih h.2
  rw [hdw]
  rfl

/-- C10: `sendMessage` with empty or whitespace-only content dispatches no
actions, leaves the reducer state and the persisted localStorage history
unchanged, and performs no backend request. -/
theorem sendMessage_blank_noop (content : List Char) (st : ChatState)
    (saved : List Msg) (api : ApiResult) (h : content.all jsSpace = true) :
    sendMessage content st saved api = (st, saved, [], false) := by
  unfold sendMessage
  rw [jsTrim_eq_nil_of_all_space h]
  rfl

theorem sendMessage_blank_noop_witness :
    (str " \n\t").all jsSpace = true ∧
      sendMessage (str " \n\t") initialState [] (ApiResult.err []) =
        (initialState, [], [], false) :=
  ⟨by decide,
    sendMessage_blank_noop (str " \n\t") initialState [] (ApiResult.err [])
      (by decide)⟩
